import Mathlib

/-
Verification of the daddy-array adaptive chunked traversal library.

The repository ships only interface declarations (src/index.d.ts); the
executable engine described by the design document is not present in the
sources.  Following the design document, the engine is modelled here as a
generic chunked traversal: a `Burst` processes up to a given number of
elements synchronously, and `driveF` drives successive bursts, yielding to
the host between bursts.  The wall-clock adaptive chunk sizing cannot be
embedded (no real time), so the chunk length of each burst is abstracted as
an arbitrary sequence `chunks : Nat -> Nat`, clamped below by 1 exactly as
the design's `max(1, targetBudget / elapsedPerElement)` recomputation
guarantees.  Every public operation is an instance of the engine, as the
design prescribes.
-/

namespace DaddyArray

/-- Transcribed from src/index.d.ts lines 2-5: the resolved value
`{result, success}` of every operation. -/
structure Result (σ : Type) where
  result : σ
  success : Bool
deriving DecidableEq, Repr

/-- Modelled from the spec: the InvalidArgument-class error of the error
taxonomy in section 7, raised by a fold operation without a seed on an empty
array. -/
inductive DaddyError : Type where
  | invalidArgument : DaddyError
deriving DecidableEq, Repr

/-- Modelled from the spec: the value returned by one invocation of the
per-element `step` function of a TraversalConfig -- the updated accumulator,
whether the visitor invoked the cancellation signal `stop()`, and whether the
operation's early-termination predicate holds on the step's return. -/
structure StepOut (ρ : Type) where
  acc : ρ
  stop : Bool
  exit : Bool

/-- Modelled from the spec: what one synchronous burst of the Traversal
Engine reports back to the Chunk Scheduler -- the accumulator, the elements
still to visit, the (index, element) pairs the visitor was invoked on during
this burst in order, and the cancellation / early-exit flags. -/
structure BurstOut (ρ α : Type) where
  acc : ρ
  rest : List (Nat × α)
  visited : List (Nat × α)
  stopped : Bool
  exited : Bool

/-- Modelled from the spec: the terminal state of a whole driven traversal,
with `yields` counting the host-turn suspensions that occurred before the
outcome resolved (one before every burst, including the first: the design
requires that no operation resolves synchronously). -/
structure DriveOut (ρ α : Type) where
  acc : ρ
  stopped : Bool
  visited : List (Nat × α)
  yields : Nat

/-- Modelled from the spec: the result of the unchunked reference traversal
`seqRun` (accumulator, cancellation flag, visit trace). -/
structure SeqOut (ρ α : Type) where
  acc : ρ
  stopped : Bool
  visited : List (Nat × α)
deriving DecidableEq

/-- Modelled from the spec: one synchronous burst of the Traversal Engine
(section 4.2).  Visits up to `k` of the remaining (index, element) pairs in
order, updating the accumulator via `step`; stops the burst the moment the
visitor invokes `stop()` or the early-termination predicate holds. -/
def Burst (step : ρ → α → Nat → StepOut ρ) :
    ρ → List (Nat × α) → Nat → BurstOut ρ α
  | acc, rest, 0 => ⟨acc, rest, [], false, false⟩
  | acc, [], _ + 1 => ⟨acc, [], [], false, false⟩
  | acc, (i, x) :: rest, k + 1 =>
    match step acc x i with
    | ⟨a, true, e⟩ => ⟨a, rest, [(i, x)], true, e⟩
    | ⟨a, false, true⟩ => ⟨a, rest, [(i, x)], false, true⟩
    | ⟨a, false, false⟩ =>
      let b := Burst step a rest k
      ⟨b.acc, b.rest, (i, x) :: b.visited, b.stopped, b.exited⟩

/-- Modelled from the spec: the Chunk Scheduler loop (section 4.1), with the
adaptive chunk sizing abstracted as the arbitrary sequence `chunks` of burst
lengths, clamped below by 1 as in the design's recomputation step.  `fuel`
bounds the number of bursts; callers supply enough fuel that it never runs
out.  Each burst is preceded by one host-turn yield (the first burst is
itself scheduled asynchronously), which `yields` counts. -/
def driveF (step : ρ → α → Nat → StepOut ρ) (chunks : Nat → Nat) :
    Nat → Nat → ρ → List (Nat × α) → DriveOut ρ α
  | 0, _, acc, _ => ⟨acc, false, [], 1⟩
  | fuel + 1, n, acc, rest =>
    let b := Burst step acc rest (max 1 (chunks n))
    if b.stopped || b.exited || b.rest.isEmpty then
      ⟨b.acc, b.stopped, b.visited, 1⟩
    else
      let d := driveF step chunks fuel (n + 1) b.acc b.rest
      ⟨d.acc, d.stopped, b.visited ++ d.visited, d.yields + 1⟩

/-- Modelled from the spec: the unchunked reference traversal -- visit all
remaining pairs in order in a single run, stopping at cancellation or early
exit.  The chunked scheduler is proved equivalent to this. -/
def seqRun (step : ρ → α → Nat → StepOut ρ) :
    ρ → List (Nat × α) → SeqOut ρ α
  | acc, [] => ⟨acc, false, []⟩
  | acc, (i, x) :: rest =>
    match step acc x i with
    | ⟨a, true, _⟩ => ⟨a, true, [(i, x)]⟩
    | ⟨a, false, true⟩ => ⟨a, false, [(i, x)]⟩
    | ⟨a, false, false⟩ =>
      let r := seqRun step a rest
      ⟨r.acc, r.stopped, (i, x) :: r.visited⟩

/-- Continuing the unchunked reference traversal after one burst. -/
def seqCont (step : ρ → α → Nat → StepOut ρ) (b : BurstOut ρ α) : SeqOut ρ α :=
  if b.stopped || b.exited then ⟨b.acc, b.stopped, b.visited⟩
  else
    let r := seqRun step b.acc b.rest
    ⟨r.acc, r.stopped, b.visited ++ r.visited⟩

/-- Accumulator threading: fold the step function over a list of visited
(index, element) pairs. -/
def foldAcc (step : ρ → α → Nat → StepOut ρ) (acc : ρ)
    (l : List (Nat × α)) : ρ :=
  l.foldl (fun a p => (step a p.2 p.1).acc) acc

lemma burst_nil (step : ρ → α → Nat → StepOut ρ) (acc : ρ) (k : Nat) :
    Burst step acc [] k = ⟨acc, [], [], false, false⟩ := by
  cases k <;> rfl

lemma burst_rest_le (step : ρ → α → Nat → StepOut ρ) :
    ∀ (k : Nat) (acc : ρ) (rest : List (Nat × α)),
      (Burst step acc rest k).rest.length ≤ rest.length := by
  intro k
  induction k with
  | zero => intro acc rest; simp [Burst]
  | succ k ih =>
    intro acc rest
    cases rest with
    | nil => simp [Burst]
    | cons p t =>
      obtain ⟨i, x⟩ := p
      simp only [Burst]
      rcases hst : step acc x i with ⟨a, s, e⟩
      cases s with
      | true => simp [List.length_cons]
      | false =>
        cases e with
        | true => simp [List.length_cons]
        | false =>
          simp only [List.length_cons]
          have := ih a t
          omega

lemma burst_progress (step : ρ → α → Nat → StepOut ρ) (k : Nat) (acc : ρ)
    (rest : List (Nat × α)) (hne : rest ≠ []) (hk : 1 ≤ k) :
    (Burst step acc rest k).rest.length < rest.length := by
  cases k with
  | zero => omega
  | succ k =>
    cases rest with
    | nil => exact absurd rfl hne
    | cons p t =>
      obtain ⟨i, x⟩ := p
      simp only [Burst]
      rcases hst : step acc x i with ⟨a, s, e⟩
      cases s with
      | true => simp
      | false =>
        cases e with
        | true => simp
        | false =>
          simp only [List.length_cons]
          have := burst_rest_le step k a t
          omega

lemma burst_seq (step : ρ → α → Nat → StepOut ρ) :
    ∀ (k : Nat) (acc : ρ) (rest : List (Nat × α)),
      seqCont step (Burst step acc rest k) = seqRun step acc rest := by
  intro k
  induction k with
  | zero =>
    intro acc rest
    simp [Burst, seqCont, seqRun]
  | succ k ih =>
    intro acc rest
    cases rest with
    | nil => simp [Burst, seqCont, seqRun]
    | cons p t =>
      obtain ⟨i, x⟩ := p
      simp only [Burst, seqRun]
      rcases hst : step acc x i with ⟨a, s, e⟩
      cases s with
      | true => simp [seqCont]
      | false =>
        cases e with
        | true => simp [seqCont]
        | false =>
          simp only
          rw [← ih a t]
          simp only [seqCont]
          by_cases hb : (Burst step a t k).stopped = true ∨
              (Burst step a t k).exited = true
          · rcases hb with hb | hb <;> simp [hb]
          · push_neg at hb
            simp [hb.1, hb.2]

lemma driveF_seq (step : ρ → α → Nat → StepOut ρ) (chunks : Nat → Nat) :
    ∀ (fuel n : Nat) (acc : ρ) (rest : List (Nat × α)),
      rest.length < fuel →
      (driveF step chunks fuel n acc rest).acc = (seqRun step acc rest).acc ∧
      (driveF step chunks fuel n acc rest).stopped
        = (seqRun step acc rest).stopped ∧
      (driveF step chunks fuel n acc rest).visited
        = (seqRun step acc rest).visited := by
  intro fuel
  induction fuel with
  | zero => intro n acc rest h; omega
  | succ fuel ih =>
    intro n acc rest hlen
    rw [← burst_seq step (max 1 (chunks n)) acc rest]
    simp only [driveF, seqCont]
    by_cases hse : (Burst step acc rest (max 1 (chunks n))).stopped = true ∨
        (Burst step acc rest (max 1 (chunks n))).exited = true
    · have hcond : ((Burst step acc rest (max 1 (chunks n))).stopped ||
          (Burst step acc rest (max 1 (chunks n))).exited ||
          (Burst step acc rest (max 1 (chunks n))).rest.isEmpty) = true := by
        rcases hse with h | h <;> simp [h]
      rcases hse with h | h <;> simp [hcond, h]
    · push_neg at hse
      by_cases hem : (Burst step acc rest (max 1 (chunks n))).rest.isEmpty
      · simp [hse.1, hse.2, hem, seqRun]
        rw [List.isEmpty_iff] at hem
        simp [hem, seqRun]
      · have hne : rest ≠ [] := by
          intro hnil
          subst hnil
          simp [burst_nil] at hem
        have hlt : (Burst step acc rest (max 1 (chunks n))).rest.length
            < rest.length :=
          burst_progress step _ acc rest hne (le_max_left 1 (chunks n))
        have := ih (n + 1) (Burst step acc rest (max 1 (chunks n))).acc
          (Burst step acc rest (max 1 (chunks n))).rest (by omega)
        simp [hse.1, hse.2, hem]
        simp [this.1, this.2.1, this.2.2]

/-- Modelled from the spec: a full driven traversal -- the Chunk Scheduler
runs the Traversal Engine over the ordered (index, element) pairs with
accumulator seed `acc`, with enough burst fuel to finish. -/
def engineRun (step : ρ → α → Nat → StepOut ρ) (acc : ρ)
    (ord : List (Nat × α)) (chunks : Nat → Nat) : DriveOut ρ α :=
  driveF step chunks (ord.length + 1) 0 acc ord

/-- Modelled from the spec: the resolved Outcome of a driven traversal --
the projected final accumulator, and `success = true` unless the visitor
invoked the cancellation signal (section 3). -/
def engineOutcome (step : ρ → α → Nat → StepOut ρ) (proj : ρ → σ) (acc : ρ)
    (ord : List (Nat × α)) (chunks : Nat → Nat) : Result σ :=
  ⟨proj (engineRun step acc ord chunks).acc,
    !(engineRun step acc ord chunks).stopped⟩

/-- Modelled from the spec: the visit trace of a driven traversal -- the
(index, element) pairs on which the visitor was invoked, in order. -/
def engineVisited (step : ρ → α → Nat → StepOut ρ) (acc : ρ)
    (ord : List (Nat × α)) (chunks : Nat → Nat) : List (Nat × α) :=
  (engineRun step acc ord chunks).visited

/-- Modelled from the spec: how many host-turn yields a driven traversal
performs before its outcome resolves (one before every burst, including the
first). -/
def engineYields (step : ρ → α → Nat → StepOut ρ) (acc : ρ)
    (ord : List (Nat × α)) (chunks : Nat → Nat) : Nat :=
  (engineRun step acc ord chunks).yields

lemma engineRun_acc (step : ρ → α → Nat → StepOut ρ) (acc : ρ)
    (ord : List (Nat × α)) (chunks : Nat → Nat) :
    (engineRun step acc ord chunks).acc = (seqRun step acc ord).acc :=
  (driveF_seq step chunks (ord.length + 1) 0 acc ord (Nat.lt_succ_self _)).1

lemma engineRun_stopped (step : ρ → α → Nat → StepOut ρ) (acc : ρ)
    (ord : List (Nat × α)) (chunks : Nat → Nat) :
    (engineRun step acc ord chunks).stopped = (seqRun step acc ord).stopped :=
  (driveF_seq step chunks (ord.length + 1) 0 acc ord (Nat.lt_succ_self _)).2.1

lemma engineVisited_seq (step : ρ → α → Nat → StepOut ρ) (acc : ρ)
    (ord : List (Nat × α)) (chunks : Nat → Nat) :
    engineVisited step acc ord chunks = (seqRun step acc ord).visited :=
  (driveF_seq step chunks (ord.length + 1) 0 acc ord (Nat.lt_succ_self _)).2.2

lemma engineOutcome_seq (step : ρ → α → Nat → StepOut ρ) (proj : ρ → σ)
    (acc : ρ) (ord : List (Nat × α)) (chunks : Nat → Nat) :
    engineOutcome step proj acc ord chunks
      = ⟨proj (seqRun step acc ord).acc, !(seqRun step acc ord).stopped⟩ := by
  rw [engineOutcome, engineRun_acc, engineRun_stopped]

lemma foldAcc_nil (step : ρ → α → Nat → StepOut ρ) (acc : ρ) :
    foldAcc step acc [] = acc := rfl

lemma foldAcc_cons (step : ρ → α → Nat → StepOut ρ) (acc : ρ) (i : Nat)
    (x : α) (l : List (Nat × α)) :
    foldAcc step acc ((i, x) :: l) = foldAcc step (step acc x i).acc l := rfl

lemma seq_no_stop (step : ρ → α → Nat → StepOut ρ)
    (hs : ∀ a x i, (step a x i).stop = false)
    (he : ∀ a x i, (step a x i).exit = false) :
    ∀ (l : List (Nat × α)) (acc : ρ),
      seqRun step acc l = ⟨foldAcc step acc l, false, l⟩ := by
  intro l
  induction l with
  | nil => intro acc; simp [seqRun, foldAcc]
  | cons p t ih =>
    obtain ⟨i, x⟩ := p
    intro acc
    have h1 := hs acc x i
    have h2 := he acc x i
    simp only [seqRun]
    rcases hst : step acc x i with ⟨a, s, e⟩
    rw [hst] at h1 h2
    simp only at h1 h2
    subst h1
    subst h2
    simp only [ih a, foldAcc_cons, hst]

lemma seq_acc_foldAcc (step : ρ → α → Nat → StepOut ρ) :
    ∀ (l : List (Nat × α)) (acc : ρ),
      (seqRun step acc l).acc
        = foldAcc step acc ((seqRun step acc l).visited) := by
  intro l
  induction l with
  | nil => intro acc; simp [seqRun, foldAcc]
  | cons p t ih =>
    obtain ⟨i, x⟩ := p
    intro acc
    simp only [seqRun]
    rcases hst : step acc x i with ⟨a, s, e⟩
    cases s with
    | true => simp [foldAcc_cons, hst, foldAcc_nil]
    | false =>
      cases e with
      | true => simp [foldAcc_cons, hst, foldAcc_nil]
      | false => simp [foldAcc_cons, hst, ih a]

lemma seq_stopped_iff (step : ρ → α → Nat → StepOut ρ) :
    ∀ (l : List (Nat × α)) (acc : ρ),
      (seqRun step acc l).stopped = true ↔
        ∃ pre i x, (seqRun step acc l).visited = pre ++ [(i, x)] ∧
          (step (foldAcc step acc pre) x i).stop = true := by
  intro l
  induction l with
  | nil =>
    intro acc
    simp only [seqRun]
    constructor
    · intro h; simp at h
    · rintro ⟨pre, i, x, h, -⟩
      exact absurd h (by simp)
  | cons p t ih =>
    obtain ⟨i, x⟩ := p
    intro acc
    simp only [seqRun]
    rcases hst : step acc x i with ⟨a, s, e⟩
    cases s with
    | true =>
      refine ⟨fun _ => ⟨[], i, x, by simp, by simp [foldAcc_nil, hst]⟩,
        fun _ => rfl⟩
    | false =>
      cases e with
      | true =>
        simp only
        constructor
        · intro h; simp at h
        · rintro ⟨pre, j, y, hv, hstop⟩
          cases pre with
          | nil =>
            simp only [List.nil_append, List.cons.injEq, Prod.mk.injEq] at hv
            obtain ⟨⟨hji, hyx⟩, -⟩ := hv
            subst hji; subst hyx
            rw [foldAcc_nil, hst] at hstop
            simp at hstop
          | cons q pre' =>
            simp only [List.cons_append, List.cons.injEq] at hv
            exact absurd hv.2 (by simp)
      | false =>
        simp only
        rw [ih a]
        constructor
        · rintro ⟨pre', j, y, hv, hstop⟩
          refine ⟨(i, x) :: pre', j, y, by simp [hv], ?_⟩
          rwa [foldAcc_cons, hst]
        · rintro ⟨pre, j, y, hv, hstop⟩
          cases pre with
          | nil =>
            simp only [List.nil_append, List.cons.injEq, Prod.mk.injEq] at hv
            obtain ⟨⟨hji, hyx⟩, hvis⟩ := hv
            subst hji; subst hyx
            rw [foldAcc_nil, hst] at hstop
            simp at hstop
          | cons q pre' =>
            simp only [List.cons_append, List.cons.injEq] at hv
            obtain ⟨hq, hvis⟩ := hv
            subst hq
            rw [foldAcc_cons, hst] at hstop
            exact ⟨pre', j, y, hvis, hstop⟩

lemma seq_stopped_iff_sp (step : ρ → α → Nat → StepOut ρ) (sp : α → Nat → Bool)
    (hs : ∀ a x i, (step a x i).stop = sp x i) :
    ∀ (l : List (Nat × α)) (acc : ρ),
      (seqRun step acc l).stopped = true ↔
        ∃ p ∈ (seqRun step acc l).visited, sp p.2 p.1 = true := by
  intro l
  induction l with
  | nil => intro acc; simp [seqRun]
  | cons p t ih =>
    obtain ⟨i, x⟩ := p
    intro acc
    have h1 := hs acc x i
    simp only [seqRun]
    rcases hst : step acc x i with ⟨a, s, e⟩
    rw [hst] at h1
    simp only at h1
    subst h1
    cases hsp : sp x i with
    | true => simp [hsp]
    | false =>
      cases e with
      | true => simp [hsp]
      | false => simp [hsp, ih a]

lemma seq_stop_le (step : ρ → α → Nat → StepOut ρ) (sp : α → Nat → Bool)
    (hs : ∀ a x i, (step a x i).stop = sp x i)
    (he : ∀ a x i, (step a x i).exit = false) (k : Nat) :
    ∀ (l : List (Nat × α)) (acc : ρ),
      l.Pairwise (fun p q => p.1 < q.1) →
      (∃ p ∈ l, p.1 = k ∧ sp p.2 p.1 = true) →
      (∀ p ∈ l, p.1 < k → sp p.2 p.1 = false) →
      (seqRun step acc l).stopped = true ∧
        ∀ p ∈ (seqRun step acc l).visited, p.1 ≤ k := by
  intro l
  induction l with
  | nil =>
    intro acc _ hex _
    simp at hex
  | cons p t ih =>
    obtain ⟨i, x⟩ := p
    intro acc hpw hex hlt
    have hfst : ∀ q ∈ t, i < q.1 := by
      intro q hq
      exact (List.pairwise_cons.mp hpw).1 q hq
    have h1 := hs acc x i
    have h2 := he acc x i
    simp only [seqRun]
    rcases hst : step acc x i with ⟨a, s, e⟩
    rw [hst] at h1 h2
    simp only at h1 h2
    subst h1
    subst h2
    cases hsp : sp x i with
    | true =>
      have hik : i ≤ k := by
        rcases hex with ⟨q, hq, hqk, hqtrue⟩
        rcases List.mem_cons.mp hq with hq | hq
        · subst hq; omega
        · have := hfst q hq; omega
      simp only [hsp]
      refine ⟨by simp, ?_⟩
      intro q hq
      simp at hq
      obtain ⟨hq1, -⟩ := hq
      omega
    | false =>
      have hik : i < k := by
        rcases hex with ⟨q, hq, hqk, hqtrue⟩
        rcases List.mem_cons.mp hq with hq | hq
        · subst hq; simp at hqtrue; rw [hqtrue] at hsp; simp at hsp
        · have := hfst q hq; omega
      have hext : ∃ q ∈ t, q.1 = k ∧ sp q.2 q.1 = true := by
        rcases hex with ⟨q, hq, hqk, hqtrue⟩
        rcases List.mem_cons.mp hq with hq | hq
        · subst hq; simp at hqtrue; rw [hqtrue] at hsp; simp at hsp
        · exact ⟨q, hq, hqk, hqtrue⟩
      have hltt : ∀ q ∈ t, q.1 < k → sp q.2 q.1 = false := by
        intro q hq hqk
        exact hlt q (List.mem_cons_of_mem _ hq) hqk
      have hrec := ih a (List.pairwise_cons.mp hpw).2 hext hltt
      simp only [hsp]
      refine ⟨hrec.1, ?_⟩
      intro q hq
      rcases List.mem_cons.mp hq with hq | hq
      · subst hq; omega
      · exact hrec.2 q hq

lemma mem_enumFrom_bounds :
    ∀ (l : List α) (n : Nat) (p : Nat × α),
      p ∈ List.enumFrom n l → n ≤ p.1 ∧ p.1 < n + l.length := by
  intro l
  induction l with
  | nil => intro n p h; simp [List.enumFrom] at h
  | cons x t ih =>
    intro n p h
    simp only [List.enumFrom, List.mem_cons] at h
    rcases h with h | h
    · subst h; simp
    · have := ih (n + 1) p h
      simp only [List.length_cons]
      omega

lemma pairwise_enumFrom :
    ∀ (l : List α) (n : Nat),
      (List.enumFrom n l).Pairwise (fun p q => p.1 < q.1) := by
  intro l
  induction l with
  | nil => intro n; simp [List.enumFrom]
  | cons x t ih =>
    intro n
    simp only [List.enumFrom]
    refine List.pairwise_cons.mpr ⟨?_, ih (n + 1)⟩
    intro q hq
    have := mem_enumFrom_bounds t (n + 1) q hq
    simp only
    omega

lemma pairwise_enum (arr : List α) :
    arr.enum.Pairwise (fun p q => p.1 < q.1) :=
  pairwise_enumFrom arr 0

/-- Modelled from the spec: the forward index walk of the Traversal Engine --
the (index, element) pairs from `start` to the end of the array, in
ascending index order. -/
def forwardOrder (arr : List α) (start : Nat) : List (Nat × α) :=
  arr.enum.drop start

/-- Modelled from the spec: the backward index walk of the Traversal
Engine -- the (index, element) pairs from `start` down to index 0. -/
def backwardOrder (arr : List α) (start : Nat) : List (Nat × α) :=
  (arr.enum.take (start + 1)).reverse

/-- Modelled from the spec: the `asyncEvery` operation adapter.  The visitor
yields the boolean test and whether it invoked `stop()`; the accumulator is
the conjunction so far, and a false test triggers the early exit. -/
def everyStep (f : α → Nat → Bool × Bool) : Bool → α → Nat → StepOut Bool :=
  fun a x i => ⟨a && (f x i).1, (f x i).2, !(f x i).1⟩

/-- Modelled from the spec: the `asyncSome` operation adapter -- disjunction
accumulator, early exit on the first true test. -/
def someStep (f : α → Nat → Bool × Bool) : Bool → α → Nat → StepOut Bool :=
  fun a x i => ⟨a || (f x i).1, (f x i).2, (f x i).1⟩

/-- Modelled from the spec: the `asyncFilter` operation adapter -- append the
element to the result sequence when the test holds; no early exit. -/
def filterStep (f : α → Nat → Bool × Bool) :
    List α → α → Nat → StepOut (List α) :=
  fun a x i => ⟨if (f x i).1 then a ++ [x] else a, (f x i).2, false⟩

/-- Modelled from the spec: the `asyncFind` operation adapter -- record the
element and exit early the moment the predicate matches. -/
def findStep (f : α → Nat → Bool × Bool) :
    Option α → α → Nat → StepOut (Option α) :=
  fun a x i => ⟨if (f x i).1 then some x else a, (f x i).2, (f x i).1⟩

/-- Modelled from the spec: the `asyncFindIndex` operation adapter -- record
the index and exit early the moment the predicate matches; -1 stands for "not
found". -/
def findIndexStep (f : α → Nat → Bool × Bool) :
    Int → α → Nat → StepOut Int :=
  fun a x i => ⟨if (f x i).1 then (i : Int) else a, (f x i).2, (f x i).1⟩

/-- Modelled from the spec: the `asyncForEach` operation adapter -- the
visitor's return value is discarded (only its `stop()` use matters) and the
array itself is the result. -/
def forEachStep (g : α → Nat → Bool) : Unit → α → Nat → StepOut Unit :=
  fun _ x i => ⟨(), g x i, false⟩

/-- Modelled from the spec: the `asyncIndexOf` / `asyncLastIndexOf` operation
adapter -- equality search with no visitor; record the index and exit early
at the first occurrence in walk order. -/
def indexOfStep [DecidableEq α] (value : α) : Int → α → Nat → StepOut Int :=
  fun a x i => if x = value then ⟨(i : Int), false, true⟩ else ⟨a, false, false⟩

/-- Modelled from the spec: the `asyncMap` operation adapter -- append the
visitor's return value to the result sequence; no early exit. -/
def mapStep (f : α → Nat → β × Bool) :
    List β → α → Nat → StepOut (List β) :=
  fun a x i => ⟨a ++ [(f x i).1], (f x i).2, false⟩

/-- Modelled from the spec: the `asyncReduce` / `asyncReduceRight` operation
adapter -- the visitor's return value replaces the accumulator. -/
def reduceStep (f : ρ → α → Nat → ρ × Bool) : ρ → α → Nat → StepOut ρ :=
  fun a x i => ⟨(f a x i).1, (f a x i).2, false⟩

/-- Modelled from the spec: `asyncEvery` (declared in src/index.d.ts lines
17-18).  The visitor is modelled as returning its boolean test together with
whether it invoked `stop()`. -/
def asyncEvery (arr : List α) (f : α → Nat → Bool × Bool)
    (chunks : Nat → Nat) : Result Bool :=
  engineOutcome (everyStep f) id true (forwardOrder arr 0) chunks

/-- Modelled from the spec: `asyncFilter` (declared in src/index.d.ts lines
29-30). -/
def asyncFilter (arr : List α) (f : α → Nat → Bool × Bool)
    (chunks : Nat → Nat) : Result (List α) :=
  engineOutcome (filterStep f) id [] (forwardOrder arr 0) chunks

/-- Modelled from the spec: `asyncFind` (declared in src/index.d.ts lines
44-45).  The declared signature has no `fromIndex` parameter, so the walk
starts at index 0; a never-matching predicate leaves the accumulator `none`
(the resolved `undefined`). -/
def asyncFind (arr : List α) (f : α → Nat → Bool × Bool)
    (chunks : Nat → Nat) : Result (Option α) :=
  engineOutcome (findStep f) id none (forwardOrder arr 0) chunks

/-- Modelled from the spec: `asyncFindIndex` (declared in src/index.d.ts
lines 59-60), with optional `fromIndex` defaulting to 0. -/
def asyncFindIndex (arr : List α) (f : α → Nat → Bool × Bool)
    (fromIndex : Option Nat) (chunks : Nat → Nat) : Result Int :=
  engineOutcome (findIndexStep f) id (-1)
    (forwardOrder arr (fromIndex.getD 0)) chunks

/-- Modelled from the spec: `asyncForEach` (declared in src/index.d.ts lines
71-72).  The visitor returns nothing; only its `stop()` use is modelled. -/
def asyncForEach (arr : List α) (g : α → Nat → Bool)
    (chunks : Nat → Nat) : Result (List α) :=
  engineOutcome (forEachStep g) (fun _ => arr) () (forwardOrder arr 0) chunks

/-- Modelled from the spec: the visitor invocation trace of `asyncForEach` --
the (index, element) pairs the visitor was called on, in order. -/
def asyncForEachVisited (arr : List α) (g : α → Nat → Bool)
    (chunks : Nat → Nat) : List (Nat × α) :=
  engineVisited (forEachStep g) () (forwardOrder arr 0) chunks

/-- Modelled from the spec: `asyncIndexOf` (declared in src/index.d.ts line
84), with optional `fromIndex` defaulting to 0. -/
def asyncIndexOf [DecidableEq α] (arr : List α) (value : α)
    (fromIndex : Option Nat) (chunks : Nat → Nat) : Result Int :=
  engineOutcome (indexOfStep value) id (-1)
    (forwardOrder arr (fromIndex.getD 0)) chunks

/-- Modelled from the spec: `asyncLastIndexOf` (declared in src/index.d.ts
line 96), a backward walk with optional `fromIndex` defaulting to the last
valid index. -/
def asyncLastIndexOf [DecidableEq α] (arr : List α) (value : α)
    (fromIndex : Option Nat) (chunks : Nat → Nat) : Result Int :=
  engineOutcome (indexOfStep value) id (-1)
    (backwardOrder arr (fromIndex.getD (arr.length - 1))) chunks

/-- Modelled from the spec: `asyncMap` (declared in src/index.d.ts lines
107-108). -/
def asyncMap (arr : List α) (f : α → Nat → β × Bool)
    (chunks : Nat → Nat) : Result (List β) :=
  engineOutcome (mapStep f) id [] (forwardOrder arr 0) chunks

/-- Modelled from the spec: `asyncReduce` (declared in src/index.d.ts lines
123-124) with the seed `init`, which the declared signature makes
mandatory. -/
def asyncReduce (arr : List α) (f : ρ → α → Nat → ρ × Bool) (init : ρ)
    (chunks : Nat → Nat) : Result ρ :=
  engineOutcome (reduceStep f) id init (forwardOrder arr 0) chunks

/-- Modelled from the spec: `asyncReduceRight` (declared in src/index.d.ts
lines 139-140) with the seed `init` -- a backward walk from the last
index. -/
def asyncReduceRight (arr : List α) (f : ρ → α → Nat → ρ × Bool) (init : ρ)
    (chunks : Nat → Nat) : Result ρ :=
  engineOutcome (reduceStep f) id init
    (backwardOrder arr (arr.length - 1)) chunks

/-- Modelled from the spec: the seedless calling convention of `asyncReduce`,
absent from the declared signatures (the declaration makes `init`
mandatory).  Per section 4.2 a fold without a seed must fail with an
InvalidArgument-class error on an empty array rather than resolve with an
undefined accumulator; on a non-empty array the first element seeds the
accumulation, which then starts at index 1 as in the synchronous reduce
convention. -/
def asyncReduceNoSeed (arr : List α) (f : α → α → Nat → α × Bool)
    (chunks : Nat → Nat) : Except DaddyError (Result α) :=
  match arr with
  | [] => Except.error DaddyError.invalidArgument
  | x :: _ =>
    Except.ok (engineOutcome (reduceStep f) id x (forwardOrder arr 1) chunks)

/-- Modelled from the spec: `asyncSome` (declared in src/index.d.ts lines
155-156). -/
def asyncSome (arr : List α) (f : α → Nat → Bool × Bool)
    (chunks : Nat → Nat) : Result Bool :=
  engineOutcome (someStep f) id false (forwardOrder arr 0) chunks

/-- Synchronous reference, following the spec's words: the result of
`Array.prototype.map` applied to the same array and visitor (the visitor
receives the element and its index). -/
def syncMap (f : α → Nat → β) (arr : List α) : List β :=
  arr.enum.map (fun p => f p.2 p.1)

/-- Synchronous reference, following the spec's words: the result of
`Array.prototype.filter` applied to the same array and visitor. -/
def syncFilter (f : α → Nat → Bool) (arr : List α) : List α :=
  (arr.enum.filter (fun p => f p.2 p.1)).map (fun p => p.2)

/-- Synchronous reference, following the spec's words: the result of
`Array.prototype.reduce` with a seed applied to the same array and
visitor. -/
def syncReduce (f : ρ → α → Nat → ρ) (init : ρ) (arr : List α) : ρ :=
  arr.enum.foldl (fun a p => f a p.2 p.1) init

/-- Transcribed from src/index.d.ts: the parameter names appearing in each
declared function signature, in order. -/
def signatureParams : String → List String
  | "asyncEvery" => ["arr", "more"]
  | "asyncFilter" => ["arr", "more"]
  | "asyncFind" => ["arr", "more"]
  | "asyncFindIndex" => ["arr", "more", "fromIndex"]
  | "asyncForEach" => ["arr", "more"]
  | "asyncIndexOf" => ["arr", "value", "fromIndex"]
  | "asyncLastIndexOf" => ["arr", "value", "fromIndex"]
  | "asyncMap" => ["arr", "more"]
  | "asyncReduce" => ["arr", "more", "init"]
  | "asyncReduceRight" => ["arr", "more", "init"]
  | "asyncSome" => ["arr", "more"]
  | _ => []

/-- Transcribed from src/index.d.ts: the parameter names documented in each
function's doc comment (its @param tags), in order. -/
def docParams : String → List String
  | "asyncEvery" => ["arr", "more"]
  | "asyncFilter" => ["arr", "more"]
  | "asyncFind" => ["arr", "more", "fromIndex"]
  | "asyncFindIndex" => ["arr", "more", "fromIndex"]
  | "asyncForEach" => ["arr", "more"]
  | "asyncIndexOf" => ["arr", "value", "fromIndex"]
  | "asyncLastIndexOf" => ["arr", "value", "fromIndex"]
  | "asyncMap" => ["arr", "more"]
  | "asyncReduce" => ["arr", "more", "init"]
  | "asyncReduceRight" => ["arr", "more", "init"]
  | "asyncSome" => ["arr", "more"]
  | _ => []

/-- Transcribed from src/index.d.ts line 45: the declared resolved type of
`asyncFind`, exactly as written in the source. -/
def asyncFindDeclaredResultType : String := "Promise<Result<T>>"

/-- Does the character list `pat` occur at the start of `l`? -/
def startsWithSeg : List Char → List Char → Bool
  | [], _ => true
  | _ :: _, [] => false
  | p :: ps, c :: cs => p == c && startsWithSeg ps cs

/-- Does the character list `pat` occur anywhere inside `l`? -/
def hasSeg (pat : List Char) : List Char → Bool
  | [] => startsWithSeg pat []
  | c :: cs => startsWithSeg pat (c :: cs) || hasSeg pat cs

/-- Does a type expression, as written in the source, mention the token
`undefined`? -/
def mentionsUndefined (s : String) : Bool :=
  hasSeg "undefined".toList s.toList

lemma forwardOrder_zero (arr : List α) : forwardOrder arr 0 = arr.enum := by
  simp [forwardOrder]

lemma backwardOrder_last (arr : List α) :
    backwardOrder arr (arr.length - 1) = arr.enum.reverse := by
  cases arr with
  | nil => rfl
  | cons x t =>
    have hlen : ((x :: t).enum).length ≤ (x :: t).length - 1 + 1 := by
      rw [List.enum_length]
      simp
    rw [backwardOrder, List.take_of_length_le hlen]

lemma foldAcc_mapStep (f : α → Nat → β × Bool) :
    ∀ (l : List (Nat × α)) (a : List β),
      foldAcc (mapStep f) a l = a ++ l.map (fun p => (f p.2 p.1).1) := by
  intro l
  induction l with
  | nil => intro a; simp [foldAcc]
  | cons p t ih =>
    intro a
    obtain ⟨i, x⟩ := p
    rw [foldAcc_cons]
    simp only [mapStep, List.map_cons]
    rw [ih]
    simp

lemma foldAcc_filterStep (f : α → Nat → Bool × Bool) :
    ∀ (l : List (Nat × α)) (a : List α),
      foldAcc (filterStep f) a l
        = a ++ (l.filter (fun p => (f p.2 p.1).1)).map (fun p => p.2) := by
  intro l
  induction l with
  | nil => intro a; simp [foldAcc]
  | cons p t ih =>
    intro a
    obtain ⟨i, x⟩ := p
    rw [foldAcc_cons]
    simp only [filterStep, List.filter_cons]
    cases hf : (f x i).1 with
    | true =>
      simp only [hf, if_true]
      rw [ih]
      simp
    | false =>
      simp
      rw [ih]

lemma foldAcc_reduceStep (f : ρ → α → Nat → ρ × Bool) (init : ρ)
    (l : List (Nat × α)) :
    foldAcc (reduceStep f) init l
      = l.foldl (fun a p => (f a p.2 p.1).1) init := rfl

lemma driveF_yields_pos (step : ρ → α → Nat → StepOut ρ) (chunks : Nat → Nat)
    (fuel n : Nat) (acc : ρ) (rest : List (Nat × α)) :
    1 ≤ (driveF step chunks fuel n acc rest).yields := by
  cases fuel with
  | zero => simp [driveF]
  | succ fuel =>
    simp only [driveF]
    split
    · exact le_refl 1
    · exact Nat.le_add_left 1 _

lemma seq_no_stop_on (step : ρ → α → Nat → StepOut ρ) :
    ∀ (l : List (Nat × α)) (acc : ρ),
      (∀ a p, p ∈ l → (step a p.2 p.1).stop = false) →
      (∀ a p, p ∈ l → (step a p.2 p.1).exit = false) →
      seqRun step acc l = ⟨foldAcc step acc l, false, l⟩ := by
  intro l
  induction l with
  | nil => intro acc _ _; simp [seqRun, foldAcc]
  | cons p t ih =>
    obtain ⟨i, x⟩ := p
    intro acc hs he
    have h1 := hs acc (i, x) (List.mem_cons_self _ _)
    have h2 := he acc (i, x) (List.mem_cons_self _ _)
    simp only at h1 h2
    simp only [seqRun]
    rcases hst : step acc x i with ⟨a, s, e⟩
    rw [hst] at h1 h2
    simp only at h1 h2
    subst h1
    subst h2
    have hrec := ih a (fun a' q hq => hs a' q (List.mem_cons_of_mem _ hq))
      (fun a' q hq => he a' q (List.mem_cons_of_mem _ hq))
    simp only [hrec, foldAcc_cons, hst]

lemma foldAcc_findStep_id (f : α → Nat → Bool × Bool) :
    ∀ (l : List (Nat × α)) (a : Option α),
      (∀ p ∈ l, (f p.2 p.1).1 = false) →
      foldAcc (findStep f) a l = a := by
  intro l
  induction l with
  | nil => intro a _; rfl
  | cons p t ih =>
    obtain ⟨i, x⟩ := p
    intro a hall
    have hx := hall (i, x) (List.mem_cons_self _ _)
    simp only at hx
    rw [foldAcc_cons]
    simp only [findStep, hx, if_false]
    exact ih a (fun q hq => hall q (List.mem_cons_of_mem _ hq))

lemma not_stopped_eq_false_iff (b : Bool) : ((!b) = false) ↔ b = true := by
  cases b <;> simp

/-- C5: `asyncReduce([1,2,3,4], (acc,x) => acc+x, 0)` resolves
`{result: 10, success: true}` for every chunk-size sequence, and calling
`asyncReduce` on an empty array without an init seed fails with the
InvalidArgument-class error instead of resolving with an undefined
accumulator. -/
theorem reduce_examples :
    ∀ (chunks : Nat → Nat) (f : Nat → Nat → Nat → Nat × Bool),
      asyncReduce [1, 2, 3, 4] (fun a x _ => (a + x, false)) 0 chunks
        = ⟨10, true⟩ ∧
      asyncReduceNoSeed ([] : List Nat) f chunks
        = Except.error DaddyError.invalidArgument := by
  intro chunks f
  constructor
  · rw [asyncReduce, engineOutcome_seq]
    rfl
  · rfl

/-- C6: `asyncFind([1,2,3,4], x => x > 2)` resolves
`{result: 3, success: true}` and `asyncFindIndex` on the same array and
predicate resolves `{result: 2, success: true}`, for every chunk-size
sequence; the natural short-circuit on the first match still reports
`success = true`. -/
theorem find_examples :
    ∀ (chunks : Nat → Nat),
      asyncFind [1, 2, 3, 4] (fun x _ => (decide (x > 2), false)) chunks
        = ⟨some 3, true⟩ ∧
      asyncFindIndex [1, 2, 3, 4] (fun x _ => (decide (x > 2), false))
          none chunks
        = ⟨2, true⟩ := by
  intro chunks
  constructor
  · rw [asyncFind, engineOutcome_seq]
    rfl
  · rw [asyncFindIndex, engineOutcome_seq]
    rfl

/-- C7: `asyncIndexOf([5,3,5,1], 5)` resolves `{result: 0, success: true}`,
`asyncLastIndexOf([5,3,5,1], 5)` resolves `{result: 2, success: true}`, and
`asyncIndexOf([1,2,3], 9)` resolves `{result: -1, success: true}`, for every
chunk-size sequence. -/
theorem indexOf_examples :
    ∀ (chunks : Nat → Nat),
      asyncIndexOf [5, 3, 5, 1] 5 none chunks = ⟨0, true⟩ ∧
      asyncLastIndexOf [5, 3, 5, 1] 5 none chunks = ⟨2, true⟩ ∧
      asyncIndexOf [1, 2, 3] 9 none chunks = ⟨-1, true⟩ := by
  intro chunks
  refine ⟨?_, ?_, ?_⟩
  · rw [asyncIndexOf, engineOutcome_seq]
    rfl
  · rw [asyncLastIndexOf, engineOutcome_seq]
    rfl
  · rw [asyncIndexOf, engineOutcome_seq]
    rfl

/-- C8: the claim says every search operation accepts a `fromIndex`
parameter, but the declared signature of `asyncFind` in src/index.d.ts has
none even though its own doc comment documents one -- the declaration
contradicts its documentation.  The other three search operations do accept
`fromIndex`, and in the modelled behavior an omitted `fromIndex` defaults to
0 for forward scans and to the last valid index for the backward scan. -/
theorem find_fromIndex_missing :
    "fromIndex" ∈ docParams "asyncFind" ∧
    "fromIndex" ∉ signatureParams "asyncFind" ∧
    "fromIndex" ∈ signatureParams "asyncFindIndex" ∧
    "fromIndex" ∈ signatureParams "asyncIndexOf" ∧
    "fromIndex" ∈ signatureParams "asyncLastIndexOf" ∧
    asyncFindIndex [10, 20] (fun x _ => (decide (x = 20), false)) none
        (fun _ => 1)
      = asyncFindIndex [10, 20] (fun x _ => (decide (x = 20), false))
        (some 0) (fun _ => 1) ∧
    asyncIndexOf [10, 20] 20 none (fun _ => 1)
      = asyncIndexOf [10, 20] 20 (some 0) (fun _ => 1) ∧
    asyncLastIndexOf [10, 20] 10 none (fun _ => 1)
      = asyncLastIndexOf [10, 20] 10 (some 1) (fun _ => 1) := by
  refine ⟨?_, ?_, ?_, ?_, ?_, rfl, rfl, rfl⟩ <;> decide

/-- C9: no operation resolves synchronously -- every driven traversal,
including one over an empty array, performs at least one host-turn yield
before its outcome resolves (and an empty array costs exactly one). -/
theorem at_least_one_yield :
    (∀ (ρ α : Type) (step : ρ → α → Nat → StepOut ρ) (acc : ρ)
        (ord : List (Nat × α)) (chunks : Nat → Nat),
      1 ≤ engineYields step acc ord chunks) ∧
    ∀ (chunks : Nat → Nat),
      engineYields (forEachStep (fun (_ : Nat) _ => false)) ()
        (forwardOrder ([] : List Nat) 0) chunks = 1 := by
  constructor
  · intro ρ α step acc ord chunks
    exact driveF_yields_pos step chunks _ 0 acc ord
  · intro chunks
    simp [engineYields, engineRun, forwardOrder, driveF, burst_nil]

/-- C1: for every array and every visitor that never invokes the
cancellation signal, `asyncForEach`, `asyncMap`, `asyncFilter` and
`asyncReduce` resolve successfully with results identical to the
corresponding synchronous array methods applied to the same array and
visitor, for every internally chosen chunk-size sequence. -/
theorem async_matches_sync (α β ρ : Type) (arr : List α)
    (hE : α → Nat → Bool) (hM : α → Nat → β × Bool)
    (hF : α → Nat → Bool × Bool) (hR : ρ → α → Nat → ρ × Bool) (init : ρ)
    (chunks : Nat → Nat)
    (h1 : ∀ x i, hE x i = false) (h2 : ∀ x i, (hM x i).2 = false)
    (h3 : ∀ x i, (hF x i).2 = false) (h4 : ∀ a x i, (hR a x i).2 = false) :
    asyncForEach arr hE chunks = ⟨arr, true⟩ ∧
    asyncMap arr hM chunks = ⟨syncMap (fun x i => (hM x i).1) arr, true⟩ ∧
    asyncFilter arr hF chunks
      = ⟨syncFilter (fun x i => (hF x i).1) arr, true⟩ ∧
    asyncReduce arr hR init chunks
      = ⟨syncReduce (fun a x i => (hR a x i).1) init arr, true⟩ := by
  refine ⟨?_, ?_, ?_, ?_⟩
  · rw [asyncForEach, engineOutcome_seq, forwardOrder_zero,
      seq_no_stop_on (forEachStep hE) arr.enum ()
        (fun a p _ => h1 p.2 p.1) (fun a p _ => rfl)]
    rfl
  · rw [asyncMap, engineOutcome_seq, forwardOrder_zero,
      seq_no_stop_on (mapStep hM) arr.enum []
        (fun a p _ => h2 p.2 p.1) (fun a p _ => rfl)]
    simp [foldAcc_mapStep, syncMap]
  · rw [asyncFilter, engineOutcome_seq, forwardOrder_zero,
      seq_no_stop_on (filterStep hF) arr.enum []
        (fun a p _ => h3 p.2 p.1) (fun a p _ => rfl)]
    simp [foldAcc_filterStep, syncFilter]
  · rw [asyncReduce, engineOutcome_seq, forwardOrder_zero,
      seq_no_stop_on (reduceStep hR) arr.enum init
        (fun a p _ => h4 a p.2 p.1) (fun a p _ => rfl)]
    rfl

theorem async_matches_sync_witness :
    asyncForEach [1, 2, 3] (fun _ _ => false) (fun _ => 2)
      = ⟨[1, 2, 3], true⟩ ∧
    asyncMap [1, 2, 3] (fun x i => (x + i, false)) (fun _ => 2)
      = ⟨syncMap (fun x i => ((x + i, false)).1) [1, 2, 3], true⟩ ∧
    asyncFilter [1, 2, 3] (fun x _ => (decide (x % 2 = 1), false)) (fun _ => 2)
      = ⟨syncFilter (fun x _ => ((decide (x % 2 = 1), false)).1) [1, 2, 3],
          true⟩ ∧
    asyncReduce [1, 2, 3] (fun a x _ => (a + x, false)) 0 (fun _ => 2)
      = ⟨syncReduce (fun a x _ => ((a + x, false)).1) 0 [1, 2, 3], true⟩ :=
  async_matches_sync Nat Nat Nat [1, 2, 3] (fun _ _ => false)
    (fun x i => (x + i, false)) (fun x _ => (decide (x % 2 = 1), false))
    (fun a x _ => (a + x, false)) 0 (fun _ => 2)
    (fun _ _ => rfl) (fun _ _ => rfl) (fun _ _ => rfl) (fun _ _ _ => rfl)

/-- C4: on every visited element the value returned by the visitor replaces
the accumulator and is threaded into the next visitor call (the final
accumulator of any driven traversal is the fold of the step function over
the visit trace), and for `asyncReduce` / `asyncReduceRight` the resolved
result is exactly that fold over the whole array, forward respectively
backward. -/
theorem reduce_threads_accumulator :
    (∀ (ρ α : Type) (step : ρ → α → Nat → StepOut ρ) (acc : ρ)
        (ord : List (Nat × α)) (chunks : Nat → Nat),
      (engineRun step acc ord chunks).acc
        = foldAcc step acc (engineVisited step acc ord chunks)) ∧
    ∀ (ρ α : Type) (arr : List α) (g h : ρ → α → Nat → ρ) (init : ρ)
        (chunks : Nat → Nat),
      (asyncReduce arr (fun a x i => (g a x i, false)) init chunks).result
        = arr.enum.foldl (fun a p => g a p.2 p.1) init ∧
      (asyncReduceRight arr (fun a x i => (h a x i, false)) init
          chunks).result
        = arr.enum.reverse.foldl (fun a p => h a p.2 p.1) init := by
  constructor
  · intro ρ α step acc ord chunks
    rw [engineRun_acc, engineVisited_seq]
    exact seq_acc_foldAcc step ord acc
  · intro ρ α arr g h init chunks
    constructor
    · rw [asyncReduce, engineOutcome_seq, forwardOrder_zero,
        seq_no_stop_on (reduceStep (fun a x i => (g a x i, false))) arr.enum
          init (fun a p _ => rfl) (fun a p _ => rfl)]
      rfl
    · rw [asyncReduceRight, engineOutcome_seq, backwardOrder_last,
        seq_no_stop_on (reduceStep (fun a x i => (h a x i, false)))
          arr.enum.reverse init (fun a p _ => rfl) (fun a p _ => rfl)]
      rfl

/-- C3: a driven traversal resolves with `success = false` exactly when the
visitor invoked the cancellation signal at the last visited element, before
natural completion; in every other case, including normal exhaustion and the
internal early exit of search operations, `success = true`.  Stated for the
generic engine every operation instantiates, and instantiated for
`asyncForEach` with an index-determined stop predicate. -/
theorem success_false_iff_stop :
    (∀ (ρ α σ : Type) (step : ρ → α → Nat → StepOut ρ) (proj : ρ → σ)
        (acc : ρ) (ord : List (Nat × α)) (chunks : Nat → Nat),
      ((engineOutcome step proj acc ord chunks).success = false ↔
        ∃ pre i x, engineVisited step acc ord chunks = pre ++ [(i, x)] ∧
          (step (foldAcc step acc pre) x i).stop = true)) ∧
    ∀ (α : Type) (arr : List α) (g : α → Nat → Bool) (chunks : Nat → Nat),
      ((asyncForEach arr g chunks).success = false ↔
        ∃ p ∈ asyncForEachVisited arr g chunks, g p.2 p.1 = true) := by
  constructor
  · intro ρ α σ step proj acc ord chunks
    rw [engineOutcome_seq, engineVisited_seq]
    have hb := not_stopped_eq_false_iff (seqRun step acc ord).stopped
    exact hb.trans (seq_stopped_iff step ord acc)
  · intro α arr g chunks
    rw [asyncForEach, engineOutcome_seq, asyncForEachVisited,
      engineVisited_seq, forwardOrder_zero]
    have hb := not_stopped_eq_false_iff
      (seqRun (forEachStep g) () arr.enum).stopped
    exact hb.trans (seq_stopped_iff_sp (forEachStep g) g
      (fun a x i => rfl) arr.enum ())

/-- C2: if the visitor calls `stop()` while visiting element index k of a
forward scan (and not at any earlier index), then no element at an index
greater than k is ever visited -- the visitor is never invoked again in that
burst or any subsequent burst -- and the resolved outcome has
`success = false`. -/
theorem stop_halts_scan (α : Type) (arr : List α) (g : α → Nat → Bool)
    (chunks : Nat → Nat) (k : Nat)
    (hstop : ∃ p ∈ arr.enum, p.1 = k ∧ g p.2 p.1 = true)
    (hbefore : ∀ p ∈ arr.enum, p.1 < k → g p.2 p.1 = false) :
    (∀ p ∈ asyncForEachVisited arr g chunks, p.1 ≤ k) ∧
    (asyncForEach arr g chunks).success = false := by
  have h := seq_stop_le (forEachStep g) g (fun a x i => rfl)
    (fun a x i => rfl) k arr.enum () (pairwise_enum arr) hstop hbefore
  constructor
  · intro p hp
    rw [asyncForEachVisited, engineVisited_seq, forwardOrder_zero] at hp
    exact h.2 p hp
  · rw [asyncForEach, engineOutcome_seq, forwardOrder_zero]
    simp [h.1]

theorem stop_halts_scan_witness :
    (∀ p ∈ asyncForEachVisited [10, 20, 30] (fun _ i => decide (i = 1))
        (fun _ => 1), p.1 ≤ 1) ∧
    (asyncForEach [10, 20, 30] (fun _ i => decide (i = 1))
        (fun _ => 1)).success = false :=
  stop_halts_scan Nat [10, 20, 30] (fun _ i => decide (i = 1)) (fun _ => 1) 1
    (by decide) (by decide)

/-- C10: when no element satisfies the predicate and the visitor never calls
stop, `asyncFind` resolves with an undefined result (`none`) and
`success = true`, although the declared result type written in the source,
`Promise<Result<T>>`, does not mention `undefined`. -/
theorem find_no_match_undefined (α : Type) (arr : List α)
    (t : α → Nat → Bool) (chunks : Nat → Nat)
    (hnone : ∀ p ∈ arr.enum, t p.2 p.1 = false) :
    asyncFind arr (fun x i => (t x i, false)) chunks = ⟨none, true⟩ ∧
    mentionsUndefined asyncFindDeclaredResultType = false := by
  constructor
  · rw [asyncFind, engineOutcome_seq, forwardOrder_zero,
      seq_no_stop_on (findStep (fun x i => (t x i, false))) arr.enum none
        (fun a p _ => rfl) (fun a p hp => hnone p hp)]
    rw [Result.mk.injEq]
    exact ⟨foldAcc_findStep_id _ arr.enum none hnone, rfl⟩
  · rfl

theorem find_no_match_undefined_witness :
    asyncFind [1, 2] (fun _ _ => ((false : Bool), (false : Bool)))
        (fun _ => 1)
      = ⟨none, true⟩ ∧
    mentionsUndefined asyncFindDeclaredResultType = false :=
  find_no_match_undefined Nat [1, 2] (fun _ _ => false) (fun _ => 1)
    (by decide)
